import Mathlib

/-!
Verification of the StarHack/gio text layout engine specification.

The repository sample under scrutiny consists of the text-layout test suite
(`text/gotext_test.go`) and the `io/externalDragDrop` op. The production
layout code exercised by the tests (visual ordering, font matching, line
building, document append, op buffer writing internals) is not part of the
sample, so those components are modelled here from the specification
(`spec.md`), faithful to its §4 algorithms, and the claims are settled
against these models.
-/

namespace Gio

/-- Reading direction of a run or of a whole line (base paragraph direction). -/
inductive Dir where
  | ltr
  | rtl
deriving DecidableEq, Repr

/-- Modelled from the spec (§4.4 steps 3-4): scan a (possibly reversed)
sequence of logical run indices and reverse in place each maximal contiguous
group of indices whose run direction is opposite to the line's base
direction. `acc` holds the current opposite-direction group in reversed
order; flushing it emits the group reversed. -/
def revGroups (isOpp : Nat → Bool) : List Nat → List Nat → List Nat
  | acc, [] => acc
  | acc, x :: xs =>
    if isOpp x then revGroups isOpp (x :: acc) xs
    else acc ++ x :: revGroups isOpp [] xs

/-- Modelled from the spec (§4.4): `computeVisualOrder` builds the logical
index sequence `[0, …, n-1]`, reverses it when the base direction is
right-to-left, and then reverses every maximal group of opposite-direction
runs, yielding the permutation `visualOrder`. -/
def computeVisualOrder (base : Dir) (dirs : List Dir) : List Nat :=
  let seq := List.range dirs.length
  revGroups (fun i => decide (dirs.getD i base ≠ base)) []
    (if base = Dir.rtl then seq.reverse else seq)

/-- Modelled from the spec (§4.4 step 5): each run's `VisualPosition` is the
screen position `p` with `visualOrder[p]` equal to the run's logical index,
i.e. the index of the run's logical index inside `visualOrder`. -/
def visualPosition (vo : List Nat) (i : Nat) : Nat :=
  vo.indexOf i

theorem revGroups_perm (p : Nat → Bool) :
    ∀ (xs acc : List Nat), List.Perm (revGroups p acc xs) (acc ++ xs)
  | [], acc => by simp [revGroups]
  | x :: xs, acc => by
    by_cases h : p x
    · have ih := revGroups_perm p xs (x :: acc)
      simp only [revGroups, h, if_true]
      refine ih.trans ?_
      exact List.perm_middle.symm
    · have ih := revGroups_perm p xs []
      simp only [revGroups, h, if_false]
      exact List.Perm.append_left acc (List.Perm.cons x (by simpa using ih))

theorem computeVisualOrder_perm (base : Dir) (dirs : List Dir) :
    List.Perm (computeVisualOrder base dirs) (List.range dirs.length) := by
  unfold computeVisualOrder
  refine (revGroups_perm _ _ _).trans ?_
  by_cases h : base = Dir.rtl
  · simp [h, List.reverse_perm]
  · simp [h]

theorem getD_indexOf_self :
    ∀ (l : List Nat) (a : Nat), a ∈ l → l.getD (l.indexOf a) 0 = a
  | [], a, h => by cases h
  | x :: l, a, h => by
    by_cases hx : x = a
    · subst hx
      simp [List.indexOf_cons_self]
    · have ha : a ∈ l := by
        cases h with
        | head => exact absurd rfl hx
        | tail _ h' => exact h'
      rw [List.indexOf_cons_ne _ hx]
      simpa using getD_indexOf_self l a ha

/-- Claim C1: for every line, `visualOrder` as produced by the visual order
resolver is a permutation of `[0, len(runs))`, and `VisualPosition` is its
inverse: `visualOrder[runs[i].VisualPosition] == i` for every run index `i`. -/
theorem visualOrder_perm_inverse (base : Dir) (dirs : List Dir) :
    List.Perm (computeVisualOrder base dirs) (List.range dirs.length) ∧
      ∀ i, i < dirs.length →
        (computeVisualOrder base dirs).getD
          (visualPosition (computeVisualOrder base dirs) i) 0 = i := by
  refine ⟨computeVisualOrder_perm base dirs, fun i hi => ?_⟩
  have hmem : i ∈ computeVisualOrder base dirs :=
    ((computeVisualOrder_perm base dirs).mem_iff).2 (List.mem_range.2 hi)
  exact getD_indexOf_self _ i hmem

/-- Concrete instantiation of `visualOrder_perm_inverse` at a two-run
bidirectional line, discharging the index bound. -/
theorem visualOrder_perm_inverse_witness :
    List.Perm (computeVisualOrder Dir.ltr [Dir.ltr, Dir.rtl]) (List.range 2) ∧
      (computeVisualOrder Dir.ltr [Dir.ltr, Dir.rtl]).getD
        (visualPosition (computeVisualOrder Dir.ltr [Dir.ltr, Dir.rtl]) 1) 0 = 1 :=
  ⟨(visualOrder_perm_inverse Dir.ltr [Dir.ltr, Dir.rtl]).1,
    (visualOrder_perm_inverse Dir.ltr [Dir.ltr, Dir.rtl]).2 1 (by decide)⟩

/-- Font style, per the data model (§3): Regular or Italic. -/
inductive Style where
  | regular
  | italic
deriving DecidableEq, Repr

/-- Modelled from the spec (§3): weights form a totally ordered numeric
scale, 100-unit steps matching common weight taxonomies. -/
def Thin : Int := 100

def ExtraLight : Int := 200

def Light : Int := 300

def Normal : Int := 400

def Medium : Int := 500

def SemiBold : Int := 600

def Bold : Int := 700

def ExtraBold : Int := 800

def Black : Int := 900

def ExtraBlack : Int := 1000

/-- Font descriptor, per the data model (§3). -/
structure FontM where
  typeface : String
  style : Style
  weight : Int
deriving DecidableEq, Repr

/-- Weight distance used by the font matcher (§4.1 step 3). -/
def diffW (w : Int) (f : FontM) : Nat :=
  (f.weight - w).natAbs

/-- Modelled from the spec (§4.1 step 3): select the candidate minimizing
the weight distance; a later candidate replaces the running best only when
strictly closer, so ties are broken by the first candidate in input order. -/
def pickClosest (w : Int) : FontM → List FontM → FontM
  | best, [] => best
  | best, g :: gs => pickClosest w (if diffW w g < diffW w best then g else best) gs

/-- Modelled from the spec (§4.1 step 1): the typeface-filtered candidate set. -/
def faceFiltered (want : FontM) (avail : List FontM) : List FontM :=
  avail.filter (fun f => f.typeface == want.typeface)

/-- Modelled from the spec (§4.1 step 2): candidates with exactly matching style. -/
def styleFiltered (want : FontM) (avail : List FontM) : List FontM :=
  (faceFiltered want avail).filter (fun f => f.style == want.style)

/-- Modelled from the spec (§4.1 step 2): restrict to the style-matching
subset when non-empty, otherwise fall back to the whole typeface-filtered set. -/
def candidates (want : FontM) (avail : List FontM) : List FontM :=
  if styleFiltered want avail = [] then faceFiltered want avail
  else styleFiltered want avail

/-- Modelled from the spec (§4.1): `closestFont` fails when no available
descriptor matches the requested typeface, and otherwise returns the
weight-closest candidate of the style-preferred set. -/
def closestFont (want : FontM) (avail : List FontM) : Option FontM :=
  match candidates want avail with
  | [] => none
  | c :: cs => some (pickClosest want.weight c cs)

/-- The result of `pickClosest` splits its input as `pre ++ result :: post`
where every candidate before the result is strictly farther in weight and
every candidate after it is at least as far: the result is the first
minimizer. -/
theorem pickClosest_spec (w : Int) :
    ∀ (fs : List FontM) (f0 : FontM),
      ∃ pre post, f0 :: fs = pre ++ pickClosest w f0 fs :: post ∧
        (∀ g ∈ pre, diffW w (pickClosest w f0 fs) < diffW w g) ∧
        (∀ g ∈ post, diffW w (pickClosest w f0 fs) ≤ diffW w g)
  | [], f0 => ⟨[], [], by simp [pickClosest]⟩
  | g :: gs, f0 => by
    by_cases hlt : diffW w g < diffW w f0
    · obtain ⟨pre, post, heq, hpre, hpost⟩ := pickClosest_spec w gs g
      have hres : pickClosest w f0 (g :: gs) = pickClosest w g gs := by
        simp [pickClosest, hlt]
      rw [hres]
      refine ⟨f0 :: pre, post, by simpa using heq, ?_, hpost⟩
      intro x hx
      rcases List.mem_cons.1 hx with hx0 | hxpre
      · subst hx0
        have hr : diffW w (pickClosest w g gs) ≤ diffW w g := by
          cases pre with
          | nil =>
            have hg : g = pickClosest w g gs := by
              have := congrArg (fun l => l.head?) heq
              simpa using this
            exact le_of_eq (congrArg (diffW w) hg.symm)
          | cons p ps =>
            have hg : g = p := by
              have := congrArg (fun l => l.head?) heq
              simpa using this
            subst hg
            exact le_of_lt (hpre g (by simp))
        exact lt_of_le_of_lt hr hlt
      · exact hpre x hxpre
    · obtain ⟨pre, post, heq, hpre, hpost⟩ := pickClosest_spec w gs f0
      have hres : pickClosest w f0 (g :: gs) = pickClosest w f0 gs := by
        simp [pickClosest, hlt]
      rw [hres]
      cases pre with
      | nil =>
        have hf0 : pickClosest w f0 gs = f0 := by
          have := congrArg (fun l => l.head?) heq
          simpa using this.symm
        have hgs : gs = post := by
          have := congrArg (fun l => l.tail) heq
          simpa using this
        refine ⟨[], g :: gs, by simp [hf0], by simp, ?_⟩
        intro x hx
        rw [hf0]
        rcases List.mem_cons.1 hx with hx0 | hxgs
        · subst hx0
          exact le_of_not_lt hlt
        · simpa [hf0] using hpost x (hgs ▸ hxgs)
      | cons p ps =>
        have hp : f0 = p := by
          have := congrArg (fun l => l.head?) heq
          simpa using this
        rw [← hp] at hpre
        have htail : gs = ps ++ pickClosest w f0 gs :: post := by
          have := congrArg (fun l => l.tail) heq
          simpa using this
        refine ⟨f0 :: g :: ps, post, ?_, ?_, hpost⟩
        · simp only [List.cons_append]
          rw [← htail]
        · intro y hy
          rcases List.mem_cons.1 hy with hy0 | hy'
          · rw [hy0]
            exact hpre f0 (by simp)
          · rcases List.mem_cons.1 hy' with hy1 | hyps
            · rw [hy1]
              exact lt_of_lt_of_le (hpre f0 (by simp)) (le_of_not_lt hlt)
            · exact hpre y (by simp [hyps])

/-- Claim C6: restricted to the exactly matching typeface, `closestFont`
prefers candidates whose style exactly equals the requested style when any
exist (falling back to all same-typeface candidates otherwise), and within
that set returns the first candidate minimizing the absolute weight
distance; with available weights Light, Normal and Bold, a request for Thin
returns Light, Medium returns Normal and SemiBold returns Bold. -/
theorem closestFont_style_weight :
    (∀ (want : FontM) (avail : List FontM), faceFiltered want avail ≠ [] →
      ∃ r pre post, closestFont want avail = some r ∧
        candidates want avail = pre ++ r :: post ∧
        (∀ g ∈ pre, diffW want.weight r < diffW want.weight g) ∧
        (∀ g ∈ post, diffW want.weight r ≤ diffW want.weight g)) ∧
    closestFont ⟨"MockFace", Style.regular, Thin⟩
        [⟨"MockFace", Style.regular, Light⟩, ⟨"MockFace", Style.regular, Normal⟩,
          ⟨"MockFace", Style.regular, Bold⟩]
      = some ⟨"MockFace", Style.regular, Light⟩ ∧
    closestFont ⟨"MockFace", Style.regular, Medium⟩
        [⟨"MockFace", Style.regular, Light⟩, ⟨"MockFace", Style.regular, Normal⟩,
          ⟨"MockFace", Style.regular, Bold⟩]
      = some ⟨"MockFace", Style.regular, Normal⟩ ∧
    closestFont ⟨"MockFace", Style.regular, SemiBold⟩
        [⟨"MockFace", Style.regular, Light⟩, ⟨"MockFace", Style.regular, Normal⟩,
          ⟨"MockFace", Style.regular, Bold⟩]
      = some ⟨"MockFace", Style.regular, Bold⟩ := by
  refine ⟨?_, by decide, by decide, by decide⟩
  intro want avail hface
  have hc : candidates want avail ≠ [] := by
    by_cases h : styleFiltered want avail = []
    · simpa [candidates, h] using hface
    · simp [candidates, h]
  obtain ⟨c, cs, hcc⟩ : ∃ c cs, candidates want avail = c :: cs := by
    cases hcand : candidates want avail with
    | nil => exact absurd hcand hc
    | cons c cs => exact ⟨c, cs, rfl⟩
  obtain ⟨pre, post, heq, hpre, hpost⟩ := pickClosest_spec want.weight cs c
  refine ⟨pickClosest want.weight c cs, pre, post, ?_, ?_, hpre, hpost⟩
  · simp [closestFont, hcc]
  · rw [hcc]
    exact heq

/-- Concrete instantiation of `closestFont_style_weight` requesting a
Regular Normal face from a singleton Italic Light list of the same
typeface, discharging the non-empty-typeface-filter hypothesis. -/
theorem closestFont_style_weight_witness :
    ∃ r pre post,
      closestFont ⟨"A", Style.regular, Normal⟩ [⟨"A", Style.italic, Light⟩] = some r ∧
        candidates ⟨"A", Style.regular, Normal⟩ [⟨"A", Style.italic, Light⟩]
          = pre ++ r :: post ∧
        (∀ g ∈ pre, diffW Normal r < diffW Normal g) ∧
        (∀ g ∈ post, diffW Normal r ≤ diffW Normal g) :=
  closestFont_style_weight.1 ⟨"A", Style.regular, Normal⟩ [⟨"A", Style.italic, Light⟩]
    (by decide)

/-- Claim C7: `closestFont` reports not-found exactly when no available
descriptor has a typeface equal to the requested one, for every requested
style and weight; there is no cross-typeface fallback. -/
theorem closestFont_found_iff_typeface (want : FontM) (avail : List FontM) :
    closestFont want avail = none ↔ ∀ f ∈ avail, f.typeface ≠ want.typeface := by
  have hnone : closestFont want avail = none ↔ candidates want avail = [] := by
    cases hcand : candidates want avail with
    | nil => simp [closestFont, hcand]
    | cons c cs => simp [closestFont, hcand]
  have hcand_nil : candidates want avail = [] ↔ faceFiltered want avail = [] := by
    by_cases h : styleFiltered want avail = []
    · simp [candidates, h]
    · have hface : faceFiltered want avail ≠ [] := fun hf =>
        h (by simp [styleFiltered, hf])
      simp [candidates, h, hface]
  rw [hnone, hcand_nil, faceFiltered]
  simp [List.filter_eq_nil_iff]

/-- A rune (Unicode code point), modelled as a natural number. -/
abbrev Rune := Nat

/-- The explicit line-terminator rune. -/
def newlineRune : Rune := 10

/-- One shaped glyph, per the data model (§3): advance, cluster index within
the run, number of source runes the cluster consumes, and the cluster's
glyph count (`0` is the reserved synthetic-newline sentinel). -/
structure GlyphM where
  xAdvance : Int
  clusterIndex : Nat
  runeCount : Nat
  glyphCount : Nat
deriving DecidableEq, Repr

/-- A run as delivered by the shaping black box (§6): positioned glyphs plus
the run's direction. -/
structure RunIn where
  glyphs : List GlyphM
  dir : Dir
deriving DecidableEq, Repr

/-- A laid-out run owned by a line (§3): glyphs, direction, rune range
relative to the line, total advance, and the screen position filled in by
the visual order resolver. -/
structure RunLayout where
  glyphs : List GlyphM
  dir : Dir
  runesOffset : Nat
  runesCount : Nat
  advance : Int
  visualPos : Nat
deriving DecidableEq, Repr

/-- One visual line of text, per the data model (§3). -/
structure LineM where
  runs : List RunLayout
  visualOrder : List Nat
  dir : Dir
  width : Int
  runeCount : Nat
  yOffset : Int
  boundsMinY : Int
  boundsMaxY : Int
deriving DecidableEq, Repr

/-- A laid-out document: ordered lines plus the shared `alignWidth` (§3). -/
structure DocumentM where
  lines : List LineM
  alignWidthVal : Int
deriving DecidableEq, Repr

/-- Layout parameters: font metrics at the requested size (§3, §4.3). -/
structure Params where
  ascent : Int
  descent : Int
  advanceW : Int
deriving DecidableEq, Repr

/-- Modelled from the spec (§4.2) and the recomputation in the test suite:
a run's rune count accumulates `runeCount` only when `clusterIndex` changes
from the previous glyph, so continuation glyphs of a cluster are not
double-counted. `cur` is the previous glyph's cluster, if any. -/
def clusterRunesAux : Option Nat → List GlyphM → Nat
  | _, [] => 0
  | cur, g :: gs =>
    if cur = some g.clusterIndex then clusterRunesAux cur gs
    else g.runeCount + clusterRunesAux (some g.clusterIndex) gs

/-- Rune count of a run recomputed from its glyphs' cluster transitions. -/
def clusterRunes (gs : List GlyphM) : Nat :=
  clusterRunesAux none gs

/-- Modelled from the spec (§4.3 and the test suite's call shape
`alignWidth(minWidth, lines)`): the resolved box width starts at the
caller's minimum and takes the maximum with every produced line's width. -/
def alignWidth (minWidth : Int) (ws : List Int) : Int :=
  ws.foldl (fun m w => max m w) minWidth

/-- The maximum line width of a produced document (zero when empty). -/
def contentWidth (ws : List Int) : Int :=
  ws.foldl (fun m w => max m w) 0

theorem foldl_max_max (l : List Int) : ∀ a b : Int,
    l.foldl (fun m w => max m w) (max a b) = max a (l.foldl (fun m w => max m w) b) := by
  induction l with
  | nil => intro a b; rfl
  | cons x l ih =>
    intro a b
    simp only [List.foldl_cons]
    rw [max_assoc]
    exact ih a (max b x)

theorem foldl_max_le (l : List Int) : ∀ b M : Int, b ≤ M → (∀ w ∈ l, w ≤ M) →
    l.foldl (fun m w => max m w) b ≤ M := by
  induction l with
  | nil => intro b M hb _; exact hb
  | cons x l ih =>
    intro b M hb hl
    simp only [List.foldl_cons]
    exact ih (max b x) M (max_le hb (hl x (by simp))) fun w hw => hl w (by simp [hw])

theorem foldl_max_init (l : List Int) : ∀ b : Int,
    b ≤ l.foldl (fun m w => max m w) b := by
  induction l with
  | nil => intro b; exact le_refl b
  | cons x l ih =>
    intro b
    simp only [List.foldl_cons]
    exact le_trans (le_max_left b x) (ih (max b x))

theorem foldl_max_mem_le (l : List Int) : ∀ b x : Int, x ∈ l →
    x ≤ l.foldl (fun m w => max m w) b := by
  induction l with
  | nil => intro b x hx; cases hx
  | cons y l ih =>
    intro b x hx
    simp only [List.foldl_cons]
    rcases List.mem_cons.1 hx with hx0 | hxl
    · subst hx0
      have hbase : max b x ≤ l.foldl (fun m w => max m w) (max b x) :=
        foldl_max_init l (max b x)
      exact le_trans (le_max_right b x) hbase
    · exact ih (max b y) x hxl

/-- Claim C4: for every layout call with `minWidth <= maxWidth` (and line
widths kept within `maxWidth` by the line builder), the resolved
`alignWidth` equals `max(minWidth, min(contentWidth, maxWidth))`; in
particular minimum 0 and maximum 100 with content 22 give 22, minimum and
maximum 100 give 100, minimum 50 and maximum 100 with content 22 give 50,
and with content 60 give 60. -/
theorem alignWidth_clamped :
    (∀ (minW maxW : Int) (ws : List Int), 0 ≤ minW → minW ≤ maxW →
      (∀ w ∈ ws, w ≤ maxW) →
      alignWidth minW ws = max minW (min (contentWidth ws) maxW)) ∧
    alignWidth 0 [22] = 22 ∧ alignWidth 100 [22] = 100 ∧
    alignWidth 50 [22] = 50 ∧ alignWidth 50 [60] = 60 := by
  refine ⟨?_, by decide, by decide, by decide, by decide⟩
  intro minW maxW ws h0 hmm hws
  have hcw : contentWidth ws ≤ maxW :=
    foldl_max_le ws 0 maxW (le_trans h0 hmm) hws
  have h1 : ws.foldl (fun m w => max m w) (max minW 0)
      = max minW (ws.foldl (fun m w => max m w) 0) := foldl_max_max ws minW 0
  rw [max_eq_left h0] at h1
  calc alignWidth minW ws = max minW (contentWidth ws) := h1
    _ = max minW (min (contentWidth ws) maxW) := by rw [min_eq_left hcw]

/-- Concrete instantiation of `alignWidth_clamped` at minimum 1, maximum 40
and lines of widths 7 and 30, discharging the three hypotheses. -/
theorem alignWidth_clamped_witness :
    alignWidth 1 [7, 30] = max 1 (min (contentWidth [7, 30]) 40) :=
  alignWidth_clamped.1 1 40 [7, 30] (by decide) (by decide) (by decide)

/-- Modelled from the spec (§4.5 step 1): split the input into paragraphs at
explicit line-terminator runes, each terminator retained with its preceding
paragraph. The empty input yields no paragraphs. -/
def splitParas : List Rune → List (List Rune)
  | [] => []
  | r :: rs =>
    if r = newlineRune then [r] :: splitParas rs
    else
      match splitParas rs with
      | [] => [[r]]
      | p :: ps => (r :: p) :: ps

/-- Modelled from the spec (§6, §4.2): the external shaping black box, at
the simplest contract-conforming behavior, turns each rune into one glyph
forming its own cluster consuming one rune; a terminator rune becomes the
synthetic newline placeholder (`glyphCount = 0`, zero advance), which for
this left-to-right run sits at the final index as §4.2 requires. `i` is the
cluster index of the first rune. -/
def shapeGlyphs (p : Params) (i : Nat) : List Rune → List GlyphM
  | [] => []
  | r :: rs =>
    (if r = newlineRune then GlyphM.mk 0 i 1 0 else GlyphM.mk p.advanceW i 1 1)
      :: shapeGlyphs p (i + 1) rs

/-- The modelled shaping black box applied to one paragraph: a single
left-to-right run covering the whole paragraph. -/
def shapeParagraph (p : Params) (rs : List Rune) : RunIn :=
  { glyphs := shapeGlyphs p 0 rs, dir := Dir.ltr }

/-- Total advance of a shaped run. -/
def runAdvance (r : RunIn) : Int :=
  r.glyphs.foldl (fun a g => a + g.xAdvance) 0

/-- Modelled from the spec (§4.4 step 5, §4.4 final invariant): convert the
shaped runs of one line into laid-out runs, recomputing each run's rune
count from its glyphs' cluster transitions (§4.2), assigning each run's
rune offset as the cumulative rune count of the logically preceding runs,
and filling `visualPos` from the visual order permutation. -/
def buildRuns (vo : List Nat) : Nat → Nat → List RunIn → List RunLayout
  | _, _, [] => []
  | idx, off, r :: rsIn =>
    { glyphs := r.glyphs, dir := r.dir, runesOffset := off,
      runesCount := clusterRunes r.glyphs, advance := runAdvance r,
      visualPos := visualPosition vo idx }
      :: buildRuns vo (idx + 1) (off + clusterRunes r.glyphs) rsIn

/-- Sum of the recomputed run rune counts of a line. -/
def lineRuneTotal (l : LineM) : Nat :=
  (l.runs.map (fun r => r.runesCount)).sum

/-- Modelled from the spec (§4.3, §4.4): build one line from its shaped
runs: compute the visual order, lay out the runs, sum absolute advances
into the line width, and derive the line box from the font's ascent and
descent so that even an empty line reports a non-degenerate rectangle. -/
def toLineM (p : Params) (d : Dir) (rsIn : List RunIn) : LineM :=
  let vo := computeVisualOrder d (rsIn.map (fun r => r.dir))
  let runs := buildRuns vo 0 0 rsIn
  { runs := runs, visualOrder := vo, dir := d,
    width := (runs.map (fun r => (Int.natAbs r.advance : Int))).sum,
    runeCount := (runs.map (fun r => r.runesCount)).sum,
    yOffset := 0,
    boundsMinY := -p.ascent, boundsMaxY := p.descent }

/-- Modelled from the spec (§4.5 step 4): assign every line's `yOffset` as
the running sum of line heights, starting one line height below the origin. -/
def assignY (h : Int) : Int → List LineM → List LineM
  | _, [] => []
  | y, l :: ls => { l with yOffset := y + h } :: assignY h (y + h) ls

/-- The shaped runs fed to the line builder for one paragraph: none for an
empty paragraph (an empty line owns no runs), one modelled run otherwise. -/
def paraRuns (p : Params) (para : List Rune) : List RunIn :=
  if para.isEmpty then [] else [shapeParagraph p para]

/-- Modelled from the spec (§4.5): the layout engine entry point. Splits the
input into paragraphs (an empty input still yields one empty paragraph so a
Document never has zero lines), shapes and builds one line per paragraph,
stacks vertical offsets, and resolves the document's `alignWidth`. -/
def layoutRunes (p : Params) (minW maxW : Int) (d : Dir) (rs : List Rune) :
    DocumentM :=
  let paras := splitParas rs
  let paras := if paras.isEmpty then [[]] else paras
  let ls := paras.map (fun para => toLineM p d (paraRuns p para))
  let ls := assignY (p.ascent + p.descent) 0 ls
  { lines := ls, alignWidthVal := alignWidth minW (ls.map (fun l => l.width)) }

/-- Total of the per-run rune counts over all runs of all lines. -/
def docRuneTotal (d : DocumentM) : Nat :=
  (d.lines.map lineRuneTotal).sum

theorem splitParas_eq_nil : ∀ rs : List Rune, splitParas rs = [] → rs = []
  | [], _ => rfl
  | r :: rs, h => by
    simp only [splitParas] at h
    by_cases hr : r = newlineRune
    · rw [if_pos hr] at h
      simp at h
    · rw [if_neg hr] at h
      cases hsp : splitParas rs with
      | nil => rw [hsp] at h; simp at h
      | cons q qs => rw [hsp] at h; simp at h

theorem splitParas_mem_ne_nil : ∀ (rs : List Rune), ∀ q ∈ splitParas rs, q ≠ []
  | [], q, hq => by simp [splitParas] at hq
  | r :: rs, q, hq => by
    simp only [splitParas] at hq
    by_cases hr : r = newlineRune
    · rw [if_pos hr] at hq
      rcases List.mem_cons.1 hq with h0 | hmem
      · subst h0; simp
      · exact splitParas_mem_ne_nil rs q hmem
    · rw [if_neg hr] at hq
      cases hsp : splitParas rs with
      | nil =>
        rw [hsp] at hq
        have : q = [r] := by simpa using hq
        subst this; simp
      | cons t ts =>
        rw [hsp] at hq
        rcases List.mem_cons.1 hq with h0 | hmem
        · subst h0; simp
        · exact splitParas_mem_ne_nil rs q (by rw [hsp]; exact List.mem_cons_of_mem t hmem)

theorem splitParas_length_sum : ∀ rs : List Rune,
    ((splitParas rs).map List.length).sum = rs.length
  | [] => rfl
  | r :: rs => by
    simp only [splitParas]
    by_cases hr : r = newlineRune
    · rw [if_pos hr]
      simp [splitParas_length_sum rs]
      omega
    · rw [if_neg hr]
      cases hsp : splitParas rs with
      | nil =>
        have : rs = [] := splitParas_eq_nil rs hsp
        subst this
        simp
      | cons q qs =>
        have hs := splitParas_length_sum rs
        rw [hsp] at hs
        simp only [List.map_cons, List.sum_cons, List.length_cons] at hs ⊢
        omega

theorem clusterRunesAux_shapeGlyphs (p : Params) :
    ∀ (rs : List Rune) (i : Nat) (cur : Option Nat),
      (∀ j, cur = some j → j < i) →
      clusterRunesAux cur (shapeGlyphs p i rs) = rs.length
  | [], _, _, _ => rfl
  | r :: rs, i, cur, hcur => by
    have hne : cur ≠ some i := fun hc => lt_irrefl i (hcur i hc)
    have hstep : ∀ g : GlyphM, g.clusterIndex = i → g.runeCount = 1 →
        clusterRunesAux cur (g :: shapeGlyphs p (i + 1) rs) = rs.length + 1 := by
      intro g hg hr1
      simp only [clusterRunesAux, hg, hr1]
      rw [if_neg hne]
      rw [clusterRunesAux_shapeGlyphs p rs (i + 1) (some i)
        (by intro j hj; cases hj; exact Nat.lt_succ_self i)]
      omega
    simp only [shapeGlyphs]
    by_cases hr : r = newlineRune
    · rw [if_pos hr]
      simpa using hstep ⟨0, i, 1, 0⟩ rfl rfl
    · rw [if_neg hr]
      simpa using hstep ⟨p.advanceW, i, 1, 1⟩ rfl rfl

theorem assignY_map_runeTotal (h : Int) : ∀ (y : Int) (ls : List LineM),
    (assignY h y ls).map lineRuneTotal = ls.map lineRuneTotal
  | _, [] => rfl
  | y, l :: ls => by
    simp only [assignY, List.map_cons]
    rw [assignY_map_runeTotal h (y + h) ls]
    rfl

theorem lineRuneTotal_para (p : Params) (d : Dir) (para : List Rune)
    (h : para ≠ []) :
    lineRuneTotal (toLineM p d (paraRuns p para)) = para.length := by
  have hempty : para.isEmpty = false := by
    cases para with
    | nil => exact absurd rfl h
    | cons x xs => rfl
  simp only [paraRuns, hempty, Bool.false_eq_true, if_false]
  simp only [toLineM, lineRuneTotal, buildRuns, shapeParagraph, List.map_cons,
    List.map_nil, List.sum_cons, List.sum_nil, clusterRunes]
  rw [clusterRunesAux_shapeGlyphs p para 0 none (fun j hj => Option.noConfusion hj)]
  omega

/-- Claim C3: for every Document produced by the layout entry point from
non-empty input, the sum of the per-run rune counts over all runs of all
lines equals the rune count of the input text. -/
theorem layout_rune_count_preserved (p : Params) (minW maxW : Int) (d : Dir)
    (rs : List Rune) (h : rs ≠ []) :
    docRuneTotal (layoutRunes p minW maxW d rs) = rs.length := by
  have hnn : splitParas rs ≠ [] := fun hsp => h (splitParas_eq_nil rs hsp)
  have hempty : (splitParas rs).isEmpty = false := by
    cases hsp : splitParas rs with
    | nil => exact absurd hsp hnn
    | cons q qs => rfl
  simp only [layoutRunes, docRuneTotal, hempty, Bool.false_eq_true, if_false]
  rw [assignY_map_runeTotal]
  rw [List.map_map]
  have hmap : (splitParas rs).map
        (lineRuneTotal ∘ fun para => toLineM p d (paraRuns p para))
      = (splitParas rs).map List.length := by
    apply List.map_congr_left
    intro para hpara
    exact lineRuneTotal_para p d para (splitParas_mem_ne_nil rs para hpara)
  rw [hmap, splitParas_length_sum]

/-- Concrete instantiation of `layout_rune_count_preserved` at the one-rune
input `[97]`, discharging the non-empty-input hypothesis. -/
theorem layout_rune_count_preserved_witness :
    docRuneTotal (layoutRunes ⟨2, 1, 1⟩ 0 100 Dir.ltr [97]) = [97].length :=
  layout_rune_count_preserved ⟨2, 1, 1⟩ 0 100 Dir.ltr [97] (by decide)

/-- Claim C8: layout of an empty rune sequence returns a Document containing
exactly one line, and that line's bounds come from the font's ascent and
descent and are never the zero rectangle. -/
theorem layout_empty_single_line_bounds (p : Params) (minW maxW : Int) (d : Dir)
    (h : 0 < p.ascent) :
    (layoutRunes p minW maxW d []).lines.length = 1 ∧
      ∀ l ∈ (layoutRunes p minW maxW d []).lines,
        l.boundsMinY = -p.ascent ∧ l.boundsMaxY = p.descent ∧
          ¬(l.boundsMinY = 0 ∧ l.boundsMaxY = 0) := by
  have hl : (layoutRunes p minW maxW d []).lines
      = [⟨[], [], d, 0, 0, 0 + (p.ascent + p.descent), -p.ascent, p.descent⟩] := by
    cases d <;> rfl
  rw [hl]
  refine ⟨rfl, ?_⟩
  intro l hmem
  have hle : l = ⟨[], [], d, 0, 0, 0 + (p.ascent + p.descent), -p.ascent, p.descent⟩ := by
    simpa using hmem
  subst hle
  refine ⟨rfl, rfl, ?_⟩
  rintro ⟨h1, -⟩
  simp only at h1
  omega

/-- Concrete instantiation of `layout_empty_single_line_bounds` at ascent 2
and descent 1, discharging the positive-ascent hypothesis. -/
theorem layout_empty_single_line_bounds_witness :
    (layoutRunes ⟨2, 1, 1⟩ 0 100 Dir.ltr []).lines.length = 1 ∧
      ∀ l ∈ (layoutRunes ⟨2, 1, 1⟩ 0 100 Dir.ltr []).lines,
        l.boundsMinY = -(2 : Int) ∧ l.boundsMaxY = 1 ∧
          ¬(l.boundsMinY = 0 ∧ l.boundsMaxY = 0) :=
  layout_empty_single_line_bounds ⟨2, 1, 1⟩ 0 100 Dir.ltr (by decide)

/-- The synthetic newline placeholder glyph (§4.2): `glyphCount = 0`,
`runeCount = 1` accounting for the terminator rune, zero advance and size. -/
def newlinePlaceholder : GlyphM := ⟨0, 0, 1, 0⟩

/-- Modelled from the spec (§4.2): insert the placeholder into a run's glyph
sequence according to the run's reading progression: at glyph index 0 when
the run progresses toward the origin (right-to-left run), else appended at
the final index. -/
def insertPlaceholder (r : RunLayout) : RunLayout :=
  match r.dir with
  | Dir.rtl => { r with glyphs := newlinePlaceholder :: r.glyphs }
  | Dir.ltr => { r with glyphs := r.glyphs ++ [newlinePlaceholder] }

/-- Apply `f` to the last element of a list, if any. -/
def modifyLast (f : RunLayout → RunLayout) : List RunLayout → List RunLayout
  | [] => []
  | [x] => [f x]
  | x :: y :: xs => x :: modifyLast f (y :: xs)

/-- Modelled from the spec (§4.2): when the paragraph ends in an explicit
line terminator, the placeholder is added to the line's logically last run;
otherwise the runs are untouched. -/
def synthesizeNewline (terminated : Bool) (runs : List RunLayout) :
    List RunLayout :=
  if terminated then modifyLast insertPlaceholder runs else runs

/-- The glyph index at which the logically final glyph of a run lives:
index 0 for a run progressing toward the origin (right-to-left run), the
final index otherwise. -/
def lastGlyphIdx (r : RunLayout) : Nat :=
  match r.dir with
  | Dir.rtl => 0
  | Dir.ltr => r.glyphs.length - 1

/-- Whether a glyph carries the synthetic-newline sentinel. -/
def isZeroGlyph (g : GlyphM) : Bool :=
  g.glyphCount == 0

/-- Number of synthetic-newline glyphs across a line's runs. -/
def zeroGlyphCount (runs : List RunLayout) : Nat :=
  (runs.map (fun r => r.glyphs.countP isZeroGlyph)).sum

theorem modifyLast_concat (f : RunLayout → RunLayout) :
    ∀ (xs : List RunLayout) (x : RunLayout),
      modifyLast f (xs ++ [x]) = xs ++ [f x]
  | [], x => rfl
  | [y], x => rfl
  | y :: z :: xs, x => by
    show y :: modifyLast f ((z :: xs) ++ [x]) = y :: ((z :: xs) ++ [f x])
    rw [modifyLast_concat f (z :: xs) x]

theorem getD_concat_length (gs : List GlyphM) (g : GlyphM) :
    (gs ++ [g]).getD gs.length g = g := by
  simp

theorem countP_zero_of_pos (gs : List GlyphM)
    (h : ∀ g ∈ gs, 1 ≤ g.glyphCount) : gs.countP isZeroGlyph = 0 := by
  rw [List.countP_eq_zero]
  intro g hg
  have := h g hg
  simp [isZeroGlyph]
  omega

/-- Claim C5: for a line built from a newline-terminated paragraph, exactly
one glyph has `glyphCount == 0`, and it is the logically final glyph of the
logically last run: glyph index 0 when that run progresses toward the
origin (right-to-left run), the final index otherwise; all other glyphs
keep `glyphCount >= 1`, and a line without an explicit terminator gains no
sentinel glyph. -/
theorem newline_synthesis_placement (runs : List RunLayout)
    (hne : runs ≠ []) (hpos : ∀ r ∈ runs, ∀ g ∈ r.glyphs, 1 ≤ g.glyphCount) :
    ∃ rs0 rl, runs = rs0 ++ [rl] ∧
      synthesizeNewline true runs = rs0 ++ [insertPlaceholder rl] ∧
      ((insertPlaceholder rl).glyphs.getD (lastGlyphIdx (insertPlaceholder rl))
          newlinePlaceholder).glyphCount = 0 ∧
      zeroGlyphCount (synthesizeNewline true runs) = 1 ∧
      synthesizeNewline false runs = runs ∧
      zeroGlyphCount runs = 0 := by
  rcases List.eq_nil_or_concat runs with h | ⟨rs0, rl, hsplit⟩
  · exact absurd h hne
  rw [List.concat_eq_append] at hsplit
  have hsynth : synthesizeNewline true runs = rs0 ++ [insertPlaceholder rl] := by
    rw [synthesizeNewline, if_pos rfl, hsplit, modifyLast_concat]
  have hrl : rl ∈ runs := by
    rw [hsplit]
    simp
  have hplace :
      ((insertPlaceholder rl).glyphs.getD (lastGlyphIdx (insertPlaceholder rl))
        newlinePlaceholder).glyphCount = 0 := by
    cases hdir : rl.dir with
    | rtl =>
      simp [insertPlaceholder, lastGlyphIdx, hdir, newlinePlaceholder]
    | ltr =>
      simp only [insertPlaceholder, lastGlyphIdx, hdir]
      have hlen : (rl.glyphs ++ [newlinePlaceholder]).length - 1 = rl.glyphs.length := by
        simp
      rw [hlen, getD_concat_length]
      rfl
  have hcount1 : (insertPlaceholder rl).glyphs.countP isZeroGlyph = 1 := by
    have h0 : rl.glyphs.countP isZeroGlyph = 0 :=
      countP_zero_of_pos rl.glyphs (hpos rl hrl)
    cases hdir : rl.dir with
    | rtl =>
      simp [insertPlaceholder, hdir, List.countP_cons, h0, isZeroGlyph,
        newlinePlaceholder]
    | ltr =>
      simp [insertPlaceholder, hdir, List.countP_append, h0, isZeroGlyph,
        newlinePlaceholder]
  have hzero : ∀ r ∈ rs0, r.glyphs.countP isZeroGlyph = 0 := by
    intro r hr
    refine countP_zero_of_pos r.glyphs (hpos r ?_)
    rw [hsplit]
    exact List.mem_append_left _ hr
  have hzc : zeroGlyphCount (synthesizeNewline true runs) = 1 := by
    rw [hsynth]
    unfold zeroGlyphCount
    rw [List.map_append, List.sum_append]
    have hs0 : ((rs0.map (fun r => r.glyphs.countP isZeroGlyph)).sum) = 0 := by
      apply List.sum_eq_zero
      intro x hx
      rcases List.mem_map.1 hx with ⟨r, hr, hxr⟩
      rw [← hxr]
      exact hzero r hr
    simp [hs0, hcount1]
  have hnosynth : synthesizeNewline false runs = runs := rfl
  have hzruns : zeroGlyphCount runs = 0 := by
    unfold zeroGlyphCount
    apply List.sum_eq_zero
    intro x hx
    rcases List.mem_map.1 hx with ⟨r, hr, hxr⟩
    rw [← hxr]
    exact countP_zero_of_pos r.glyphs (hpos r hr)
  exact ⟨rs0, rl, hsplit, hsynth, hplace, hzc, hnosynth, hzruns⟩

/-- Concrete instantiation of `newline_synthesis_placement` at a two-run
line whose last run is right-to-left, discharging both hypotheses. -/
theorem newline_synthesis_placement_witness :
    ∃ rs0 rl,
      ([⟨[⟨1, 0, 1, 1⟩], Dir.ltr, 0, 1, 1, 0⟩,
          ⟨[⟨1, 0, 1, 1⟩], Dir.rtl, 1, 1, 1, 1⟩] : List RunLayout)
          = rs0 ++ [rl] ∧
        synthesizeNewline true
            [⟨[⟨1, 0, 1, 1⟩], Dir.ltr, 0, 1, 1, 0⟩,
              ⟨[⟨1, 0, 1, 1⟩], Dir.rtl, 1, 1, 1, 1⟩]
          = rs0 ++ [insertPlaceholder rl] ∧
        ((insertPlaceholder rl).glyphs.getD (lastGlyphIdx (insertPlaceholder rl))
            newlinePlaceholder).glyphCount = 0 ∧
        zeroGlyphCount (synthesizeNewline true
            [⟨[⟨1, 0, 1, 1⟩], Dir.ltr, 0, 1, 1, 0⟩,
              ⟨[⟨1, 0, 1, 1⟩], Dir.rtl, 1, 1, 1, 1⟩]) = 1 ∧
        synthesizeNewline false
            [⟨[⟨1, 0, 1, 1⟩], Dir.ltr, 0, 1, 1, 0⟩,
              ⟨[⟨1, 0, 1, 1⟩], Dir.rtl, 1, 1, 1, 1⟩]
          = [⟨[⟨1, 0, 1, 1⟩], Dir.ltr, 0, 1, 1, 0⟩,
              ⟨[⟨1, 0, 1, 1⟩], Dir.rtl, 1, 1, 1, 1⟩] ∧
        zeroGlyphCount
            [⟨[⟨1, 0, 1, 1⟩], Dir.ltr, 0, 1, 1, 0⟩,
              ⟨[⟨1, 0, 1, 1⟩], Dir.rtl, 1, 1, 1, 1⟩] = 0 :=
  newline_synthesis_placement
    [⟨[⟨1, 0, 1, 1⟩], Dir.ltr, 0, 1, 1, 0⟩, ⟨[⟨1, 0, 1, 1⟩], Dir.rtl, 1, 1, 1, 1⟩]
    (by decide) (by decide)

/-- The sequence of vertical baseline offsets of a document's lines. -/
def yOffs (d : DocumentM) : List Int :=
  d.lines.map (fun l => l.yOffset)

/-- The document's current maximum `yOffset` (zero when it has no lines). -/
def maxYOffset (d : DocumentM) : Int :=
  (yOffs d).foldl (fun m y => max m y) 0

/-- Modelled from the spec (§4.6): `append` adds `src`'s lines after `dst`'s,
rewriting each appended line's `yOffset` by adding `dst`'s current maximum
`yOffset` plus one line height `h`; the combined `alignWidth` is the larger
of the two. -/
def appendDoc (h : Int) (dst src : DocumentM) : DocumentM :=
  { lines := dst.lines ++
      src.lines.map (fun l => { l with yOffset := l.yOffset + (maxYOffset dst + h) }),
    alignWidthVal := max dst.alignWidthVal src.alignWidthVal }

/-- Claim C9: after appending one laid-out document to another (including a
document to itself), the combined document's `yOffset` values are strictly
increasing — in particular across the boundary between the original and
the appended lines — so no two lines share a baseline. -/
theorem appendDoc_yOffsets_strictMono (h : Int) (dst src : DocumentM)
    (hh : 0 < h)
    (hdst : List.Chain' (fun a b => a < b) (yOffs dst))
    (hsrc : List.Chain' (fun a b => a < b) (yOffs src))
    (hnn : ∀ y ∈ yOffs src, 0 ≤ y) :
    List.Chain' (fun a b => a < b) (yOffs (appendDoc h dst src)) ∧
      List.Pairwise (fun a b => a ≠ b) (yOffs (appendDoc h dst src)) := by
  have hyo : yOffs (appendDoc h dst src)
      = yOffs dst ++ (yOffs src).map (fun y => y + (maxYOffset dst + h)) := by
    simp only [yOffs, appendDoc, List.map_append, List.map_map]
    rfl
  have hchain : List.Chain' (fun a b => a < b) (yOffs (appendDoc h dst src)) := by
    rw [hyo, List.chain'_append]
    refine ⟨hdst, ?_, ?_⟩
    · rw [List.chain'_map]
      exact hsrc.imp fun hab => by omega
    · intro x hx y hy
      have hxmem : x ∈ yOffs dst := by
        rcases List.mem_getLast?_eq_getLast hx with ⟨hne, hxl⟩
        rw [hxl]
        exact List.getLast_mem hne
      have hxle : x ≤ maxYOffset dst := foldl_max_mem_le (yOffs dst) 0 x hxmem
      have hymem : y ∈ (yOffs src).map (fun y => y + (maxYOffset dst + h)) :=
        List.mem_of_mem_head? hy
      rcases List.mem_map.1 hymem with ⟨y0, hy0, hyy⟩
      have h0 : 0 ≤ y0 := hnn y0 hy0
      omega
  refine ⟨hchain, ?_⟩
  have hpair : List.Pairwise (fun a b => a < b) (yOffs (appendDoc h dst src)) :=
    List.chain'_iff_pairwise.1 hchain
  exact hpair.imp fun hab => by omega

/-- Concrete instantiation of `appendDoc_yOffsets_strictMono` appending a
two-line document to itself, discharging all four hypotheses. -/
theorem appendDoc_yOffsets_strictMono_witness :
    List.Chain' (fun a b => a < b)
        (yOffs (appendDoc 3
          ⟨[⟨[], [], Dir.ltr, 0, 0, 4, -2, 1⟩, ⟨[], [], Dir.ltr, 0, 0, 7, -2, 1⟩], 0⟩
          ⟨[⟨[], [], Dir.ltr, 0, 0, 4, -2, 1⟩, ⟨[], [], Dir.ltr, 0, 0, 7, -2, 1⟩], 0⟩)) ∧
      List.Pairwise (fun a b => a ≠ b)
        (yOffs (appendDoc 3
          ⟨[⟨[], [], Dir.ltr, 0, 0, 4, -2, 1⟩, ⟨[], [], Dir.ltr, 0, 0, 7, -2, 1⟩], 0⟩
          ⟨[⟨[], [], Dir.ltr, 0, 0, 4, -2, 1⟩, ⟨[], [], Dir.ltr, 0, 0, 7, -2, 1⟩], 0⟩)) :=
  appendDoc_yOffsets_strictMono 3
    ⟨[⟨[], [], Dir.ltr, 0, 0, 4, -2, 1⟩, ⟨[], [], Dir.ltr, 0, 0, 7, -2, 1⟩], 0⟩
    ⟨[⟨[], [], Dir.ltr, 0, 0, 4, -2, 1⟩, ⟨[], [], Dir.ltr, 0, 0, 7, -2, 1⟩], 0⟩
    (by decide) (by simp [yOffs, List.chain'_cons])
    (by simp [yOffs, List.chain'_cons]) (by simp [yOffs])

/-- An event handler tag, modelled abstractly. -/
abbrev Tag := Nat

/-- The ops buffer: serialized op bytes plus recorded references. -/
structure Ops where
  data : List Nat
  refs : List Tag
deriving DecidableEq, Repr

/-- Modelled from the spec: `ops.Write1` of the internal ops package is not
part of the sample; per its use in `ReadOp.Add`, it appends one zero-filled
record of the given length to the op buffer, records the single ref, and
hands the fresh record back for the caller to fill in. -/
def write1 (o : Ops) (n : Nat) (ref : Tag) : Ops :=
  { data := o.data ++ List.replicate n 0, refs := o.refs ++ [ref] }

/-- `ReadOp.Add` from `io/externalDragDrop/externalDragDrop.go`: writes one
external-drag-drop record referencing the handler's tag and sets the
record's first byte to the op type. `tyCode` and `tyLen` stand for the
`ops.TypeExternalDragDrop` opcode and the `ops.TypeExternalDragDropLen`
record length, constants that are also outside the sample. -/
def readOpAdd (tyCode tyLen : Nat) (tag : Tag) (o : Ops) : Ops :=
  let o1 := write1 o tyLen tag
  { o1 with data := o1.data.set o.data.length tyCode }

theorem set_append_length : ∀ (l₁ l₂ : List Nat) (v : Nat),
    (l₁ ++ l₂).set l₁.length v = l₁ ++ l₂.set 0 v
  | [], l₂, v => rfl
  | x :: l₁, l₂, v => by
    simp only [List.cons_append, List.length_cons, List.set_cons_succ]
    rw [set_append_length l₁ l₂ v]

theorem take_append_self : ∀ (l₁ l₂ : List Nat), (l₁ ++ l₂).take l₁.length = l₁
  | [], l₂ => rfl
  | x :: l₁, l₂ => by
    simp only [List.cons_append, List.length_cons, List.take_succ_cons]
    rw [take_append_self l₁ l₂]

theorem getD_append_length : ∀ (l₁ : List Nat) (x : Nat) (rest : List Nat),
    (l₁ ++ x :: rest).getD l₁.length 0 = x
  | [], x, rest => rfl
  | y :: l₁, x, rest => by
    simpa using getD_append_length l₁ x rest

/-- Claim C10: for every `ReadOp` handler tag and ops buffer, `Add` appends
exactly one record of length `TypeExternalDragDropLen` whose first byte is
the `TypeExternalDragDrop` opcode and which references the handler's tag,
leaving the buffer's previously written contents unchanged. -/
theorem readOpAdd_appends_record (tyCode tyLen : Nat) (tag : Tag) (o : Ops)
    (hlen : 0 < tyLen) :
    (readOpAdd tyCode tyLen tag o).data.length = o.data.length + tyLen ∧
      (readOpAdd tyCode tyLen tag o).data.take o.data.length = o.data ∧
      (readOpAdd tyCode tyLen tag o).data.getD o.data.length 0 = tyCode ∧
      (readOpAdd tyCode tyLen tag o).refs = o.refs ++ [tag] := by
  obtain ⟨k, rfl⟩ : ∃ k, tyLen = k + 1 := ⟨tyLen - 1, by omega⟩
  have hdata : (readOpAdd tyCode (k + 1) tag o).data
      = o.data ++ tyCode :: List.replicate k 0 := by
    show ((o.data ++ List.replicate (k + 1) 0).set o.data.length tyCode)
        = o.data ++ tyCode :: List.replicate k 0
    rw [set_append_length]
    rfl
  refine ⟨?_, ?_, ?_, rfl⟩
  · rw [hdata]
    simp
  · rw [hdata, take_append_self]
  · rw [hdata, getD_append_length]

/-- Concrete instantiation of `readOpAdd_appends_record` at opcode 7,
record length 2, tag 3 and a buffer already holding two bytes and one ref,
discharging the positive-length hypothesis. -/
theorem readOpAdd_appends_record_witness :
    (readOpAdd 7 2 3 ⟨[1, 2], [5]⟩).data.length = ([1, 2] : List Nat).length + 2 ∧
      (readOpAdd 7 2 3 ⟨[1, 2], [5]⟩).data.take ([1, 2] : List Nat).length = [1, 2] ∧
      (readOpAdd 7 2 3 ⟨[1, 2], [5]⟩).data.getD ([1, 2] : List Nat).length 0 = 7 ∧
      (readOpAdd 7 2 3 ⟨[1, 2], [5]⟩).refs = [5] ++ [3] :=
  readOpAdd_appends_record 7 2 3 ⟨[1, 2], [5]⟩ (by decide)

/-- Claim C2: `computeVisualOrder` on a base-LTR line with run directions
`[LTR, RTL, RTL, RTL, LTR]` yields `[0, 3, 2, 1, 4]`, and on a base-RTL line
with run directions `[RTL, LTR, LTR, LTR, RTL]` yields `[4, 1, 2, 3, 0]`. -/
theorem computeVisualOrder_bidi_cases :
    computeVisualOrder Dir.ltr [Dir.ltr, Dir.rtl, Dir.rtl, Dir.rtl, Dir.ltr]
        = [0, 3, 2, 1, 4] ∧
      computeVisualOrder Dir.rtl [Dir.rtl, Dir.ltr, Dir.ltr, Dir.ltr, Dir.rtl]
        = [4, 1, 2, 3, 0] := by
  constructor <;> decide

end Gio
